import Mathlib

/-!
Verification of the goboot scaffolding engine core.

This file shallowly embeds the path-handling, template-rendering,
script-registration and service-orchestration logic of the goboot
repository (`pkg/utils/utils.go`, `pkg/gobootutils/template.go`,
`pkg/goboot/service.go`, `pkg/baselocal/baseLocal.go`,
`pkg/baselint/baseLint.go`, `pkg/basetest`) and proves the spec's
testable properties about the embedding.

Filesystem state is modelled as the list of directory entries created
inside the secure root, with an explicit event trace (stat/mkdir) so
that "performs no filesystem mutation" is expressible.  I/O faults
(permission errors, disk failures) are outside the model: `stat`
succeeds exactly on recorded entries (and on "." — the opened root
itself) and `mkdir` always succeeds, matching the code paths the
claims are about.
-/

namespace Goboot

/-! ## String primitives (embedding of the Go `strings` functions used) -/

/-- First occurrence split: returns the part strictly before the first
occurrence of `delim` and the part strictly after it.  `none` when
`delim` does not occur.  Mirrors `strings.Index`-based scanning
(leftmost match). -/
def splitFirst (delim : List Char) : List Char → Option (List Char × List Char)
  | [] => none
  | c :: cs =>
    if delim.isPrefixOf (c :: cs) then some ([], (c :: cs).drop delim.length)
    else
      match splitFirst delim cs with
      | none => none
      | some (pre, post) => some (c :: pre, post)

/-- `strings.Contains(s, sub)`: `Index(s, "") = 0`, so the empty pattern
is always contained. -/
def strContains (s sub : String) : Bool :=
  sub.data.isEmpty || (splitFirst sub.data s.data).isSome

/-- `strings.HasPrefix(s, p)`. -/
def strStartsWith (s p : String) : Bool :=
  p.data.isPrefixOf s.data

/-- `strings.TrimSuffix(s, suf)`. -/
def strTrimSuffix (s suf : String) : String :=
  if suf.data.isSuffixOf s.data then ⟨s.data.take (s.data.length - suf.data.length)⟩ else s

/-- Split a character list on `'/'`; mirrors `strings.Split(s, "/")`
(always returns at least one, possibly empty, segment). -/
def splitSlash : List Char → List (List Char)
  | [] => [[]]
  | c :: cs =>
    match splitSlash cs with
    | [] => [[]]
    | s :: ss => if c = '/' then [] :: s :: ss else (c :: s) :: ss

/-! ## `filepath.Clean` (Unix rules, as used on the target platform) -/

/-- Segment loop of `filepath.Clean`: drops empty and `"."` segments,
lets `".."` cancel a preceding real segment, keeps leading `".."`s of a
relative path and drops `".."` at the root of an absolute one. -/
def cleanSegsLoop (rooted : Bool) : List (List Char) → List (List Char) → List (List Char)
  | [], acc => acc
  | s :: rest, acc =>
    if s = [] ∨ s = ['.'] then cleanSegsLoop rooted rest acc
    else if s = ['.', '.'] then
      if acc ≠ [] ∧ acc.getLast? ≠ some ['.', '.'] then cleanSegsLoop rooted rest acc.dropLast
      else if rooted then cleanSegsLoop rooted rest acc
      else cleanSegsLoop rooted rest (acc ++ [['.', '.']])
    else cleanSegsLoop rooted rest (acc ++ [s])

/-- Join cleaned segments back with `'/'`. -/
def joinSegs (ls : List (List Char)) : List Char :=
  List.intercalate ['/'] ls

/-- `filepath.Clean` for Unix separators. -/
def goClean (p : String) : String :=
  if p = "" then "."
  else
    let rooted := strStartsWith p "/"
    let out := cleanSegsLoop rooted (splitSlash p.data) []
    if rooted then ⟨'/' :: joinSegs out⟩
    else if out = [] then "." else ⟨joinSegs out⟩

/-- `filepath.Join(cur, part)` for the two-argument uses in `EnsureDir`:
empty elements are skipped and the result is cleaned. -/
def goJoin (cur p : String) : String :=
  if cur = "" then goClean p else goClean (cur ++ "/" ++ p)

/-! ## `pkg/utils/utils.go`: `isPathEscapingRoot`, `ensurePathExists`, `EnsureDir` -/

/-- `isPathEscapingRoot(clean)`: the check the code applies to the
*cleaned* relative path. -/
def isPathEscapingRoot (clean : String) : Bool :=
  clean == ".." || strStartsWith clean "../" || strContains clean "/../"

/-- Filesystem syscalls issued against the secure root, recorded as an
event trace so that "no mutation" claims are expressible. -/
inductive FsEvent where
  | statEv (p : String)
  | mkdirEv (p : String)
deriving DecidableEq, Repr

/-- `ensurePathExists(path, root, perm)`: stat, and mkdir only when the
entry is missing.  `"."` is the opened root itself and always exists. -/
def ensurePathExists (p : String) (fs : List String) : List String × List FsEvent :=
  if p = "." ∨ p ∈ fs then (fs, [FsEvent.statEv p])
  else (fs ++ [p], [FsEvent.statEv p, FsEvent.mkdirEv p])

/-- The per-segment loop of `EnsureDir`: walk the split segments,
skip empty ones, join onto the running path and ensure each prefix. -/
def ensureSegs : List String → String → List String → List String × List FsEvent
  | [], _, fs => (fs, [])
  | part :: rest, cur, fs =>
    if part = "" then ensureSegs rest cur fs
    else
      let cur' := goJoin cur part
      let step := ensurePathExists cur' fs
      let tail := ensureSegs rest cur' step.1
      (tail.1, step.2 ++ tail.2)

/-- `EnsureDir(relPath, root, perm)`: no-op for `"."`/`""`, clean the
path, reject escapes before touching the filesystem, then create the
segments in order. -/
def ensureDir (relPath : String) (fs : List String) :
    Option String × List String × List FsEvent :=
  if relPath = "." ∨ relPath = "" then (none, fs, [])
  else
    let c := goClean relPath
    if isPathEscapingRoot c then
      (some ("invalid directory path " ++ relPath ++ ": path escapes root"), fs, [])
    else
      let r := ensureSegs ((splitSlash c.data).map (fun l => (⟨l⟩ : String))) "" fs
      (none, r.1, r.2)

/-- The successive joined paths `EnsureDir` ensures for a segment list. -/
def allPaths : List String → String → List String
  | [], _ => []
  | part :: rest, cur =>
    if part = "" then allPaths rest cur
    else goJoin cur part :: allPaths rest (goJoin cur part)

theorem ensureSegs_mono (parts : List String) (cur : String) (fs : List String) :
    ∀ x ∈ fs, x ∈ (ensureSegs parts cur fs).1 := by
  induction parts generalizing cur fs with
  | nil => intro x hx; simpa [ensureSegs] using hx
  | cons part rest ih =>
    intro x hx
    by_cases hp : part = ""
    · simpa [ensureSegs, hp] using ih cur fs x hx
    · simp only [ensureSegs, hp, if_false]
      apply ih
      unfold ensurePathExists
      by_cases hmem : goJoin cur part = "." ∨ goJoin cur part ∈ fs
      · simpa [hmem] using hx
      · simp [hmem, hx]

theorem ensureSegs_allPaths (parts : List String) (cur : String) (fs : List String) :
    ∀ p ∈ allPaths parts cur, p = "." ∨ p ∈ (ensureSegs parts cur fs).1 := by
  induction parts generalizing cur fs with
  | nil => intro p hp; simp [allPaths] at hp
  | cons part rest ih =>
    intro p hp
    by_cases hpe : part = ""
    · simp only [allPaths, hpe, if_true] at hp
      simpa [ensureSegs, hpe] using ih cur fs p hp
    · simp only [allPaths, hpe, if_false, List.mem_cons] at hp
      simp only [ensureSegs, hpe, if_false]
      rcases hp with hp | hp
      · subst hp
        unfold ensurePathExists
        by_cases hmem : goJoin cur part = "." ∨ goJoin cur part ∈ fs
        · rcases hmem with h | h
          · exact Or.inl h
          · exact Or.inr (by simpa [h] using ensureSegs_mono rest (goJoin cur part) fs _ h)
        · refine Or.inr ?_
          simp only [hmem, if_false]
          exact ensureSegs_mono rest (goJoin cur part) _ _ (by simp)
      · exact ih (goJoin cur part) _ p hp

theorem ensureSegs_stable (parts : List String) (cur : String) (fs : List String)
    (h : ∀ p ∈ allPaths parts cur, p = "." ∨ p ∈ fs) :
    (ensureSegs parts cur fs).1 = fs ∧
      ∀ ev ∈ (ensureSegs parts cur fs).2, ∀ q, ev ≠ FsEvent.mkdirEv q := by
  induction parts generalizing cur fs with
  | nil => simp [ensureSegs]
  | cons part rest ih =>
    by_cases hpe : part = ""
    · simpa [ensureSegs, hpe] using ih cur fs (by simpa [allPaths, hpe] using h)
    · have hcur : goJoin cur part = "." ∨ goJoin cur part ∈ fs :=
        h _ (by simp [allPaths, hpe])
      have hrest : ∀ p ∈ allPaths rest (goJoin cur part), p = "." ∨ p ∈ fs := by
        intro p hp
        exact h p (by simp [allPaths, hpe, hp])
      have := ih (goJoin cur part) fs hrest
      constructor
      · simp [ensureSegs, hpe, ensurePathExists, hcur, this.1]
      · intro ev hev q
        simp only [ensureSegs, hpe, if_false, ensurePathExists, hcur, if_true,
          List.mem_append, List.mem_singleton] at hev
        rcases hev with hev | hev
        · subst hev; simp
        · exact this.2 ev hev q

theorem ensureSegs_nodup (parts : List String) (cur : String) (fs : List String)
    (h : fs.Nodup) : (ensureSegs parts cur fs).1.Nodup := by
  induction parts generalizing cur fs with
  | nil => simpa [ensureSegs]
  | cons part rest ih =>
    by_cases hpe : part = ""
    · simpa [ensureSegs, hpe] using ih cur fs h
    · simp only [ensureSegs, hpe, if_false]
      apply ih
      unfold ensurePathExists
      by_cases hmem : goJoin cur part = "." ∨ goJoin cur part ∈ fs
      · simpa [hmem]
      · push_neg at hmem
        simp only [hmem, or_false, if_neg hmem.2]
        exact (List.nodup_append.mpr ⟨h, List.nodup_singleton _,
          by intro x hx hy; simp at hy; exact hmem.2 (hy ▸ hx)⟩)

/-! ## C1: path-escape rejection -/

/-- C1 — counterexample: `"a/../b"` contains a `"/../"` segment, yet
`EnsureDir` cleans it to `"b"`, returns no error and *creates* `b`
(a filesystem mutation), instead of returning a path-escape error. -/
theorem ensureDir_escape_counterexample :
    strContains "a/../b" "/../" = true ∧
      ensureDir "a/../b" [] =
        (none, ["b"], [FsEvent.statEv "b", FsEvent.mkdirEv "b"]) := by
  constructor
  · decide
  · decide

/-- C1 (amended) — the rejection applies to the *cleaned* path: whenever
`filepath.Clean(relPath)` is `".."`, starts with `"../"` or contains
`"/../"`, `EnsureDir` returns a path-escape error, leaves the
filesystem unchanged and issues no syscall at all. -/
theorem ensureDir_escape_rejected (relPath : String) (fs : List String)
    (h1 : relPath ≠ ".") (h2 : relPath ≠ "")
    (h : isPathEscapingRoot (goClean relPath) = true) :
    ∃ e, ensureDir relPath fs = (some e, fs, []) := by
  refine ⟨"invalid directory path " ++ relPath ++ ": path escapes root", ?_⟩
  simp [ensureDir, h1, h2, h]

/-- C1 witness: the amended statement at `"../x"`. -/
theorem ensureDir_escape_rejected_witness :
    ("../x" : String) ≠ "." ∧ ("../x" : String) ≠ "" ∧
      isPathEscapingRoot (goClean "../x") = true ∧
      ∃ e, ensureDir "../x" ["d"] = (some e, ["d"], []) :=
  ⟨by decide, by decide, by decide,
    ensureDir_escape_rejected "../x" ["d"] (by decide) (by decide) (by decide)⟩

/-! ## C8: idempotent directory creation -/

/-- C8 — `EnsureDir` is idempotent: a second call with the same
non-escaping path returns no error, leaves the filesystem exactly as
the first call left it (no duplicate entries: nodup state is
preserved), and performs no `mkdir`; and `EnsureDir "."` / `""` return
`nil` without issuing any filesystem operation. -/
theorem ensureDir_idempotent (relPath : String) (fs fs₁ : List String)
    (evs₁ : List FsEvent)
    (hesc : isPathEscapingRoot (goClean relPath) = false)
    (hfirst : ensureDir relPath fs = (none, fs₁, evs₁)) :
    (∃ evs₂, ensureDir relPath fs₁ = (none, fs₁, evs₂) ∧
        ∀ ev ∈ evs₂, ∀ q, ev ≠ FsEvent.mkdirEv q) ∧
      (fs.Nodup → fs₁.Nodup) ∧
      ensureDir "." fs = (none, fs, []) ∧ ensureDir "" fs = (none, fs, []) := by
  refine ⟨?_, ?_, by simp [ensureDir], by simp [ensureDir]⟩
  · by_cases htriv : relPath = "." ∨ relPath = ""
    · have : fs₁ = fs := by
        simp [ensureDir, htriv] at hfirst
        exact hfirst.1.symm
      subst this
      exact ⟨[], by simp [ensureDir, htriv], by simp⟩
    · push_neg at htriv
      simp only [ensureDir, htriv.1, htriv.2, or_self, if_false, hesc,
        Bool.false_eq_true] at hfirst
      have hfs₁ :
          fs₁ = (ensureSegs ((splitSlash (goClean relPath).data).map
            (fun l => (⟨l⟩ : String))) "" fs).1 := by
        have := hfirst
        exact (congrArg (fun t => t.2.1) this).symm
      have hall := ensureSegs_allPaths
        ((splitSlash (goClean relPath).data).map (fun l => (⟨l⟩ : String))) "" fs
      have hstable := ensureSegs_stable
        ((splitSlash (goClean relPath).data).map (fun l => (⟨l⟩ : String))) "" fs₁
        (by intro p hp; simpa [← hfs₁] using hall p hp)
      refine ⟨(ensureSegs ((splitSlash (goClean relPath).data).map
        (fun l => (⟨l⟩ : String))) "" fs₁).2, ?_, hstable.2⟩
      simp only [ensureDir, htriv.1, htriv.2, or_self, if_false, hesc,
        Bool.false_eq_true]
      rw [hstable.1]
  · intro hnd
    by_cases htriv : relPath = "." ∨ relPath = ""
    · have : fs₁ = fs := by
        simp [ensureDir, htriv] at hfirst
        exact hfirst.1.symm
      simpa [this]
    · push_neg at htriv
      simp only [ensureDir, htriv.1, htriv.2, or_self, if_false, hesc,
        Bool.false_eq_true] at hfirst
      have hfs₁ :
          fs₁ = (ensureSegs ((splitSlash (goClean relPath).data).map
            (fun l => (⟨l⟩ : String))) "" fs).1 :=
        (congrArg (fun t => t.2.1) hfirst).symm
      rw [hfs₁]
      exact ensureSegs_nodup _ _ _ hnd

/-- C8 witness: creating `"a/b"` twice from an empty root. -/
theorem ensureDir_idempotent_witness :
    isPathEscapingRoot (goClean "a/b") = false ∧
      ensureDir "a/b" [] =
        (none, ["a", "a/b"],
          [FsEvent.statEv "a", FsEvent.mkdirEv "a",
            FsEvent.statEv "a/b", FsEvent.mkdirEv "a/b"]) ∧
      ((∃ evs₂, ensureDir "a/b" ["a", "a/b"] = (none, ["a", "a/b"], evs₂) ∧
          ∀ ev ∈ evs₂, ∀ q, ev ≠ FsEvent.mkdirEv q) ∧
        (([] : List String).Nodup → (["a", "a/b"] : List String).Nodup) ∧
        ensureDir "." [] = (none, [], []) ∧ ensureDir "" [] = (none, [], [])) :=
  ⟨by decide, by decide,
    ensureDir_idempotent "a/b" [] ["a", "a/b"]
      [FsEvent.statEv "a", FsEvent.mkdirEv "a",
        FsEvent.statEv "a/b", FsEvent.mkdirEv "a/b"]
      (by decide) (by decide)⟩

/-! ## `pkg/gobootutils/template.go`: the `replace` template helper

The function map binds `"replace"` directly to Go's
`strings.ReplaceAll`, whose signature is `ReplaceAll(s, old, new)` —
the subject string comes *first*.  `goReplaceAll` below embeds
`strings.Replace(s, old, new, -1)`: repeated replacement of the
leftmost occurrence. -/

/-- One pass of `strings.Replace` with unlimited count: repeatedly find
the leftmost occurrence and splice in the replacement.  The fuel is a
bound on the number of occurrences plus one; `goReplaceAll` supplies
`s.length + 1`, which always suffices for a non-empty pattern. -/
def replLoopFuel (old new : List Char) : Nat → List Char → List Char
  | 0, s => s
  | n + 1, s =>
    match splitFirst old s with
    | none => s
    | some (pre, post) => pre ++ new ++ replLoopFuel old new n post

/-- Go inserts `new` before every rune and after the last one when the
pattern is empty (`Replace(s, "", new, -1)`). -/
def emptyPatIns (new : List Char) : List Char → List Char
  | [] => []
  | c :: cs => c :: (new ++ emptyPatIns new cs)

/-- `strings.ReplaceAll(s, old, new)` on character lists. -/
def goReplaceAllL (s old new : List Char) : List Char :=
  if old = [] then new ++ emptyPatIns new s
  else replLoopFuel old new (s.length + 1) s

/-- The template helper `replace` exactly as registered in
`templateFuncs`: a direct binding of `strings.ReplaceAll`, so the
first argument is the subject text. -/
def templateReplace (a b c : String) : String :=
  ⟨goReplaceAllL a.data b.data c.data⟩

/-- Split on every (leftmost, non-overlapping) occurrence of `old`. -/
def splitOnAllFuel (old : List Char) : Nat → List Char → List (List Char)
  | 0, s => [s]
  | n + 1, s =>
    match splitFirst old s with
    | none => [s]
    | some (pre, post) => pre :: splitOnAllFuel old n post

/-- Specification function, written from the spec's words: "literal,
non-regex substring replacement, all occurrences" — the text split on
every occurrence of `old`, re-joined with `new`. -/
def replaceSpec (old new text : String) : String :=
  if old.data = [] then text
  else ⟨List.intercalate new.data (splitOnAllFuel old.data (text.data.length + 1) text.data)⟩

theorem splitOnAllFuel_ne_nil (old : List Char) (n : Nat) (s : List Char) :
    splitOnAllFuel old n s ≠ [] := by
  cases n with
  | zero => simp [splitOnAllFuel]
  | succ n =>
    unfold splitOnAllFuel
    match h : splitFirst old s with
    | none => simp
    | some (pre, post) => simp

theorem intercalate_cons_ne_nil {α : Type} (sep a : List α) (l : List (List α))
    (h : l ≠ []) :
    List.intercalate sep (a :: l) = a ++ sep ++ List.intercalate sep l := by
  match l, h with
  | b :: t, _ =>
    simp [List.intercalate, List.intersperse, List.append_assoc]

theorem splitFirst_post_lt (delim : List Char) (s pre post : List Char)
    (hd : delim ≠ []) (h : splitFirst delim s = some (pre, post)) :
    post.length < s.length := by
  induction s generalizing pre with
  | nil => simp [splitFirst] at h
  | cons c cs ih =>
    unfold splitFirst at h
    by_cases hp : delim.isPrefixOf (c :: cs)
    · simp only [hp, if_true, Option.some_inj] at h
      have hd1 : 1 ≤ delim.length := by
        cases delim with
        | nil => exact absurd rfl hd
        | cons d ds => simp
      have : post = (c :: cs).drop delim.length := by
        have := congrArg Prod.snd h
        simpa using this.symm
      subst this
      simp only [List.length_drop, List.length_cons]
      omega
    · rw [if_neg hp] at h
      match hh : splitFirst delim cs with
      | none => rw [hh] at h; simp at h
      | some (pre', post') =>
        rw [hh] at h
        have h2 : post' = post := congrArg Prod.snd (Option.some.inj h)
        have := ih pre' (h2 ▸ hh)
        simp only [List.length_cons]
        omega

theorem replLoopFuel_eq_intercalate (old new : List Char) (hd : old ≠ []) :
    ∀ n s, s.length < n →
      replLoopFuel old new n s = List.intercalate new (splitOnAllFuel old n s) := by
  intro n
  induction n with
  | zero => intro s hs; omega
  | succ n ih =>
    intro s hs
    cases h : splitFirst old s with
    | none => simp [replLoopFuel, splitOnAllFuel, h, List.intercalate, List.intersperse]
    | some pp =>
      obtain ⟨pre, post⟩ := pp
      have hlt := splitFirst_post_lt old s pre post hd h
      simp only [replLoopFuel, splitOnAllFuel, h]
      rw [intercalate_cons_ne_nil new pre _ (splitOnAllFuel_ne_nil old n post),
        ih post (by omega)]

/-- C4 — counterexample: the spec claims `replace(old, new, text)`
returns `text` with `old` replaced by `new`; at `old = "x"`,
`new = "y"`, `text = "z"` that would be `"z"`, but the helper (a direct
binding of `strings.ReplaceAll`) treats its *first* argument as the
subject and returns `"x"`. -/
theorem templateReplace_counterexample :
    templateReplace "x" "y" "z" = "x" ∧ replaceSpec "x" "y" "z" = "z" ∧
      templateReplace "x" "y" "z" ≠ replaceSpec "x" "y" "z" := by
  refine ⟨by decide, by decide, by decide⟩

/-- C4 (amended) — the helper's argument order is that of
`strings.ReplaceAll(s, old, new)`: for every non-empty `old`,
`replace(text, old, new)` returns `text` with every literal, non-regex
occurrence of `old` replaced by `new` (leftmost, non-overlapping). -/
theorem templateReplace_spec (text old new : String) (h : old ≠ "") :
    templateReplace text old new = replaceSpec old new text := by
  have hd : old.data ≠ [] := by
    intro hc
    apply h
    cases old
    simp at hc
    simp [hc]
  unfold templateReplace replaceSpec goReplaceAllL
  simp only [hd, if_false]
  rw [replLoopFuel_eq_intercalate old.data new.data hd (text.data.length + 1) text.data
    (by omega)]

/-- C4 witness: `replace("banana", "an", "o") = "booa"` in both the
embedded helper and the specification function. -/
theorem templateReplace_spec_witness :
    ("an" : String) ≠ "" ∧
      templateReplace "banana" "an" "o" = replaceSpec "an" "o" "banana" ∧
      templateReplace "banana" "an" "o" = "booa" :=
  ⟨by decide, templateReplace_spec "banana" "an" "o" (by decide), by decide⟩

/-! ## `ExecuteTemplateText` (`pkg/gobootutils/template.go`)

The function parses the raw text as a Go `text/template` and executes
it.  The engine's outer loop (its lexer) scans for the left delimiter
`\x7b\x7b`; all text before an action is emitted verbatim, an
unterminated action is a parse error, and action evaluation against
the data context is abstracted as a function parameter (the claims
quantify over all contexts). -/

/-- Left delimiter of the template language. -/
def leftDelim : String := "\x7b\x7b"

/-- Right delimiter of the template language. -/
def rightDelim : String := "\x7d\x7d"

/-- A lexed template item: verbatim text or an action body. -/
inductive TItem where
  | text (s : List Char)
  | action (s : List Char)
deriving DecidableEq, Repr

/-- Lexer loop: scan for `\x7b\x7b`, emit preceding text verbatim, then
scan for the closing `\x7d\x7d` (error when missing) and continue.  The
fuel bounds the number of actions; `lexTemplate` supplies length + 1,
which always suffices since every action consumes at least the two
delimiter characters. -/
def lexFuel : Nat → List Char → Except String (List TItem)
  | _, [] => Except.ok []
  | 0, s => Except.ok [TItem.text s]
  | n + 1, s =>
    match splitFirst leftDelim.data s with
    | none => Except.ok [TItem.text s]
    | some (pre, rest) =>
      match splitFirst rightDelim.data rest with
      | none => Except.error "failed template parse: unclosed action"
      | some (act, rest') =>
        (lexFuel n rest').map fun items =>
          if pre = [] then TItem.action act :: items
          else TItem.text pre :: TItem.action act :: items

/-- Parse a template's raw text into items. -/
def lexTemplate (s : List Char) : Except String (List TItem) :=
  lexFuel (s.length + 1) s

/-- Execution: text items are written verbatim, actions are evaluated
against the data context (abstracted as `eval`). -/
def execItems (eval : List Char → Except String (List Char)) :
    List TItem → Except String (List Char)
  | [] => Except.ok []
  | TItem.text t :: rest => (execItems eval rest).map (t ++ ·)
  | TItem.action a :: rest =>
    match eval a with
    | Except.error e => Except.error e
    | Except.ok v => (execItems eval rest).map (v ++ ·)

/-- `ExecuteTemplateText(name, text, data)`: parse then execute. -/
def executeTemplateText (text : String)
    (eval : String → Except String String) : Except String String :=
  match lexTemplate text.data with
  | Except.error e => Except.error e
  | Except.ok items =>
    (execItems (fun a =>
      match eval ⟨a⟩ with
      | Except.ok r => Except.ok r.data
      | Except.error e => Except.error e) items).map fun l => (⟨l⟩ : String)

/-- C9 — render round-trip: a template containing no `\x7b\x7b` (hence
no placeholder and no directive) renders to itself without error, for
every data context. -/
theorem executeTemplateText_no_placeholder (s : String)
    (eval : String → Except String String)
    (h : strContains s leftDelim = false) :
    executeTemplateText s eval = Except.ok s := by
  have hsplit : splitFirst leftDelim.data s.data = none := by
    unfold strContains at h
    simp only [Bool.or_eq_false_iff] at h
    cases hs : splitFirst leftDelim.data s.data with
    | none => rfl
    | some v => rw [hs] at h; simp at h
  unfold executeTemplateText lexTemplate
  cases hsd : s.data with
  | nil =>
    have : s = ⟨[]⟩ := by cases s; simp_all
    subst this
    simp [lexFuel, execItems, Except.map]
  | cons c cs =>
    rw [hsd] at hsplit
    simp only [List.length_cons, lexFuel, hsplit]
    have : s = ⟨c :: cs⟩ := by cases s; simp_all
    rw [this]
    simp [execItems, Except.map]

/-- C9 witness: a placeholder-free template renders to itself even
under a context that rejects every action. -/
theorem executeTemplateText_no_placeholder_witness :
    strContains "package main\n" leftDelim = false ∧
      executeTemplateText "package main\n" (fun _ => Except.error "no field") =
        Except.ok "package main\n" :=
  ⟨by decide,
    executeTemplateText_no_placeholder "package main\n"
      (fun _ => Except.error "no field") (by decide)⟩

/-! ## `pkg/goboot/service.go`: the service manager

`serviceManager` holds a map of id → Service; we model the map as an
association list and quantify over its (arbitrary) iteration order.  A
service's behaviour is reduced to what the orchestrator observes: does
`SetConfig` succeed, does `Run` succeed.  Config lookup
(`cfgMgr.GetRegistrar` / `cfgMgr.GetService` — defined in the config
manager, whose newer source is not under `src/`; the spec's section
4.6 describes it as lookup-by-identifier) is abstracted as two boolean
predicates.  `runAll` returns the first error and the trace of service
ids whose `Run` was invoked, in invocation order.  The script-registrar
injection performed before a main-phase `Run` only mutates the
receiving module's registrar field; it does not affect control flow or
the run order, so it is not part of this model. -/

/-- Observable behaviour of a registered service. -/
structure Svc where
  setOk : Bool
  runOk : Bool
deriving DecidableEq, Repr

/-- The service manager: registered services (map iteration order is
arbitrary, so theorems quantify over the list) and the config
manager's two lookup tables. -/
structure SM where
  services : List (String × Svc)
  hasReg : String → Bool
  hasSvcCfg : String → Bool

/-- `priorServiceIDs` as hardcoded in `newServiceManager`. -/
def priorServiceIDs : List String := ["base_project"]

/-- `subsequentServiceIDs` as hardcoded in `newServiceManager`. -/
def subsequentServiceIDs : List String := ["base_local"]

/-- `isPriorService`. -/
def isPriorService (id : String) : Bool := priorServiceIDs.contains id

/-- `isSubsequentService`. -/
def isSubsequentService (id : String) : Bool := subsequentServiceIDs.contains id

/-- The config-availability test used at every phase: `GetRegistrar`,
falling back to `GetService`. -/
def hasConfig (sm : SM) (id : String) : Bool := sm.hasReg id || sm.hasSvcCfg id

/-- Map lookup `sm.services[id]`. -/
def lookupSvc (id : String) : List (String × Svc) → Option Svc
  | [] => none
  | (k, v) :: rest => if k = id then some v else lookupSvc id rest

/-- `assignConfigs`: `SetConfig` every service that has a config; first
failure aborts. -/
def assignConfigs (sm : SM) : List (String × Svc) → Option String
  | [] => none
  | (id, svc) :: rest =>
    if hasConfig sm id then
      if svc.setOk then assignConfigs sm rest
      else some ("failed to set config for " ++ id)
    else assignConfigs sm rest

/-- `runPriorServices` / `runSubsequentServices`: iterate a fixed id
list, skipping unregistered or unconfigured ids, aborting on the first
`Run` failure.  Returns (first error, ids whose `Run` was invoked). -/
def runIDList (sm : SM) : List String → Option String × List String
  | [] => (none, [])
  | id :: rest =>
    match lookupSvc id sm.services with
    | none => runIDList sm rest
    | some svc =>
      if hasConfig sm id then
        if svc.runOk then
          let r := runIDList sm rest
          (r.1, id :: r.2)
        else (some ("failed to run service " ++ id), [id])
      else runIDList sm rest

/-- The main loop of `runAll`: every registered service not in the
prior or subsequent lists, skipped when unconfigured. -/
def runMain (sm : SM) : List (String × Svc) → Option String × List String
  | [] => (none, [])
  | (id, svc) :: rest =>
    if isPriorService id || isSubsequentService id then runMain sm rest
    else if hasConfig sm id then
      if svc.runOk then
        let r := runMain sm rest
        (r.1, id :: r.2)
      else (some ("failed to run service " ++ id), [id])
    else runMain sm rest

/-- `runAll`: assign configs, run the prior phase, the main phase, then
the subsequent phase, stopping at the first error. -/
def runAll (sm : SM) : Option String × List String :=
  match assignConfigs sm sm.services with
  | some e => (some ("failed to assign configs: " ++ e), [])
  | none =>
    match (runIDList sm priorServiceIDs).1 with
    | some e => (some e, (runIDList sm priorServiceIDs).2)
    | none =>
      match (runMain sm sm.services).1 with
      | some e =>
        (some e, (runIDList sm priorServiceIDs).2 ++ (runMain sm sm.services).2)
      | none =>
        ((runIDList sm subsequentServiceIDs).1,
          (runIDList sm priorServiceIDs).2 ++ (runMain sm sm.services).2 ++
            (runIDList sm subsequentServiceIDs).2)

theorem runIDList_mem_of_registered (sm : SM) (ids : List String) (id : String)
    (svc : Svc) (hm : id ∈ ids) (hl : lookupSvc id sm.services = some svc)
    (hc : hasConfig sm id = true) (hok : (runIDList sm ids).1 = none) :
    id ∈ (runIDList sm ids).2 := by
  induction ids with
  | nil => simp at hm
  | cons x rest ih =>
    rcases List.mem_cons.mp hm with hx | hx
    · subst hx
      simp only [runIDList, hl] at hok ⊢
      rw [if_pos hc] at hok ⊢
      by_cases hr : svc.runOk = true
      · rw [if_pos hr]
        simp
      · rw [if_neg hr] at hok
        simp at hok
    · cases hlx : lookupSvc x sm.services with
      | none =>
        simp only [runIDList, hlx] at hok ⊢
        exact ih hx hok
      | some sv =>
        simp only [runIDList, hlx] at hok ⊢
        by_cases hcx : hasConfig sm x = true
        · rw [if_pos hcx] at hok ⊢
          by_cases hrx : sv.runOk = true
          · rw [if_pos hrx] at hok ⊢
            exact List.mem_cons_of_mem x (ih hx hok)
          · rw [if_neg hrx] at hok
            simp at hok
        · rw [if_neg hcx] at hok ⊢
          exact ih hx hok

theorem runIDList_subset (sm : SM) (ids : List String) :
    ∀ x ∈ (runIDList sm ids).2, x ∈ ids := by
  induction ids with
  | nil => simp [runIDList]
  | cons y rest ih =>
    intro x hx
    cases hly : lookupSvc y sm.services with
    | none =>
      simp only [runIDList, hly] at hx
      exact List.mem_cons_of_mem y (ih x hx)
    | some sv =>
      simp only [runIDList, hly] at hx
      by_cases hcy : hasConfig sm y = true
      · rw [if_pos hcy] at hx
        by_cases hry : sv.runOk = true
        · rw [if_pos hry] at hx
          rcases List.mem_cons.mp hx with hx | hx
          · exact hx ▸ List.mem_cons_self y rest
          · exact List.mem_cons_of_mem y (ih x hx)
        · rw [if_neg hry] at hx
          simp only [List.mem_singleton] at hx
          exact hx ▸ List.mem_cons_self y rest
      · rw [if_neg hcy] at hx
        exact List.mem_cons_of_mem y (ih x hx)

theorem runIDList_configured (sm : SM) (ids : List String) :
    ∀ x ∈ (runIDList sm ids).2, hasConfig sm x = true := by
  induction ids with
  | nil => simp [runIDList]
  | cons y rest ih =>
    intro x hx
    cases hly : lookupSvc y sm.services with
    | none =>
      simp only [runIDList, hly] at hx
      exact ih x hx
    | some sv =>
      simp only [runIDList, hly] at hx
      by_cases hcy : hasConfig sm y = true
      · rw [if_pos hcy] at hx
        by_cases hry : sv.runOk = true
        · rw [if_pos hry] at hx
          rcases List.mem_cons.mp hx with hx | hx
          · exact hx ▸ hcy
          · exact ih x hx
        · rw [if_neg hry] at hx
          simp only [List.mem_singleton] at hx
          exact hx ▸ hcy
      · rw [if_neg hcy] at hx
        exact ih x hx

theorem runMain_mem_of_registered (sm : SM) (entries : List (String × Svc))
    (id : String) (svc : Svc) (hm : (id, svc) ∈ entries)
    (hp : isPriorService id = false) (hs : isSubsequentService id = false)
    (hc : hasConfig sm id = true) (hok : (runMain sm entries).1 = none) :
    id ∈ (runMain sm entries).2 := by
  induction entries with
  | nil => simp at hm
  | cons e rest ih =>
    obtain ⟨eid, esvc⟩ := e
    simp only [runMain] at hok ⊢
    by_cases hps : (isPriorService eid || isSubsequentService eid) = true
    · rw [if_pos hps] at hok ⊢
      rcases List.mem_cons.mp hm with hx | hx
      · exfalso
        have h1 : eid = id := congrArg Prod.fst hx.symm
        rw [h1, hp, hs] at hps
        simp at hps
      · exact ih hx hok
    · rw [if_neg hps] at hok ⊢
      rcases List.mem_cons.mp hm with hx | hx
      · have h1 : eid = id := congrArg Prod.fst hx.symm
        have h2 : esvc = svc := congrArg Prod.snd hx.symm
        subst h1; subst h2
        rw [if_pos hc] at hok ⊢
        by_cases hr : esvc.runOk = true
        · rw [if_pos hr]
          simp
        · rw [if_neg hr] at hok
          simp at hok
      · by_cases hce : hasConfig sm eid = true
        · rw [if_pos hce] at hok ⊢
          by_cases hre : esvc.runOk = true
          · rw [if_pos hre] at hok ⊢
            exact List.mem_cons_of_mem eid (ih hx hok)
          · rw [if_neg hre] at hok
            simp at hok
        · rw [if_neg hce] at hok ⊢
          exact ih hx hok

theorem runMain_main_phase (sm : SM) (entries : List (String × Svc)) :
    ∀ x ∈ (runMain sm entries).2,
      isPriorService x = false ∧ isSubsequentService x = false ∧
        hasConfig sm x = true := by
  induction entries with
  | nil => simp [runMain]
  | cons e rest ih =>
    obtain ⟨eid, esvc⟩ := e
    intro x hx
    simp only [runMain] at hx
    by_cases hps : (isPriorService eid || isSubsequentService eid) = true
    · rw [if_pos hps] at hx
      exact ih x hx
    · rw [if_neg hps] at hx
      have hpe : isPriorService eid = false ∧ isSubsequentService eid = false := by
        have h0 : (isPriorService eid || isSubsequentService eid) = false := by
          simpa using hps
        exact Bool.or_eq_false_iff.mp h0
      by_cases hce : hasConfig sm eid = true
      · rw [if_pos hce] at hx
        by_cases hre : esvc.runOk = true
        · rw [if_pos hre] at hx
          rcases List.mem_cons.mp hx with hx | hx
          · exact hx ▸ ⟨hpe.1, hpe.2, hce⟩
          · exact ih x hx
        · rw [if_neg hre] at hx
          simp only [List.mem_singleton] at hx
          exact hx ▸ ⟨hpe.1, hpe.2, hce⟩
      · rw [if_neg hce] at hx
        exact ih x hx

/-- C2 — phase ordering: on a successful run with A = `base_project`
(prior list) registered and configured, B any registered, configured
module in neither fixed list, and C = `base_local` (subsequent list)
registered and configured, the invocation trace splits into the three
phases in order: A runs in the first block, B in the second, C in the
third, the first block contains only prior-list ids, the middle block
exactly the main-phase invocations, and the last block only
subsequent-list ids.  Hence A's `Run` completes before B's begins and
every main-phase `Run` completes before C's begins. -/
theorem runAll_phase_ordering (sm : SM) (b : String) (svcA svcB svcC : Svc)
    (t : List String)
    (hA : lookupSvc "base_project" sm.services = some svcA)
    (hAc : hasConfig sm "base_project" = true)
    (hB : (b, svcB) ∈ sm.services)
    (hBp : isPriorService b = false) (hBs : isSubsequentService b = false)
    (hBc : hasConfig sm b = true)
    (hC : lookupSvc "base_local" sm.services = some svcC)
    (hCc : hasConfig sm "base_local" = true)
    (hrun : runAll sm = (none, t)) :
    ∃ t₁ t₂ t₃, t = t₁ ++ t₂ ++ t₃ ∧
      "base_project" ∈ t₁ ∧ b ∈ t₂ ∧ "base_local" ∈ t₃ ∧
      (∀ x ∈ t₁, isPriorService x = true) ∧
      (∀ x ∈ t₂, isPriorService x = false ∧ isSubsequentService x = false) ∧
      (∀ x ∈ t₃, isSubsequentService x = true) := by
  cases hassign : assignConfigs sm sm.services with
  | some e => simp [runAll, hassign] at hrun
  | none =>
    cases hp : (runIDList sm priorServiceIDs).1 with
    | some e => simp [runAll, hassign, hp] at hrun
    | none =>
      cases hmn : (runMain sm sm.services).1 with
      | some e => simp [runAll, hassign, hp, hmn] at hrun
      | none =>
        cases hsub : (runIDList sm subsequentServiceIDs).1 with
        | some e => simp [runAll, hassign, hp, hmn, hsub] at hrun
        | none =>
          simp only [runAll, hassign, hp, hmn, hsub, Prod.mk.injEq] at hrun
          refine ⟨_, _, _, hrun.2.symm, ?_, ?_, ?_, ?_, ?_, ?_⟩
          · exact runIDList_mem_of_registered sm priorServiceIDs "base_project"
              svcA (by simp [priorServiceIDs]) hA hAc hp
          · exact runMain_mem_of_registered sm sm.services b svcB hB hBp hBs hBc hmn
          · exact runIDList_mem_of_registered sm subsequentServiceIDs "base_local"
              svcC (by simp [subsequentServiceIDs]) hC hCc hsub
          · intro x hx
            have := runIDList_subset sm priorServiceIDs x hx
            simp only [priorServiceIDs, List.mem_singleton] at this
            simp [this, isPriorService, priorServiceIDs]
          · intro x hx
            exact ⟨(runMain_main_phase sm sm.services x hx).1,
              (runMain_main_phase sm sm.services x hx).2.1⟩
          · intro x hx
            have := runIDList_subset sm subsequentServiceIDs x hx
            simp only [subsequentServiceIDs, List.mem_singleton] at this
            simp [this, isSubsequentService, subsequentServiceIDs]

/-- A concrete manager for the C2/C7 witnesses: prior, main and
subsequent modules registered and configured, plus one registered
module (`"ghost"`) with no configuration. -/
def smDemo : SM :=
  { services := [("base_local", ⟨true, true⟩), ("base_project", ⟨true, true⟩),
      ("ghost", ⟨true, true⟩), ("base_lint", ⟨true, true⟩)]
    hasReg := fun id => id == "base_project" || id == "base_lint" || id == "base_local"
    hasSvcCfg := fun _ => false }

/-- C2 witness: the phase-ordering theorem at `smDemo`, whose computed
trace is `["base_project", "base_lint", "base_local"]`. -/
theorem runAll_phase_ordering_witness :
    runAll smDemo = (none, ["base_project", "base_lint", "base_local"]) ∧
      ∃ t₁ t₂ t₃,
        (["base_project", "base_lint", "base_local"] : List String) =
          t₁ ++ t₂ ++ t₃ ∧
        "base_project" ∈ t₁ ∧ "base_lint" ∈ t₂ ∧ "base_local" ∈ t₃ ∧
        (∀ x ∈ t₁, isPriorService x = true) ∧
        (∀ x ∈ t₂, isPriorService x = false ∧ isSubsequentService x = false) ∧
        (∀ x ∈ t₃, isSubsequentService x = true) :=
  ⟨by decide,
    runAll_phase_ordering smDemo "base_lint" ⟨true, true⟩ ⟨true, true⟩ ⟨true, true⟩
      ["base_project", "base_lint", "base_local"]
      (by decide) (by decide) (by decide) (by decide) (by decide) (by decide)
      (by decide) (by decide) (by decide)⟩

theorem assignConfigs_ok (sm : SM) (entries : List (String × Svc))
    (hok : ∀ p ∈ entries, hasConfig sm p.1 = true → p.2.setOk = true) :
    assignConfigs sm entries = none := by
  induction entries with
  | nil => rfl
  | cons e rest ih =>
    obtain ⟨eid, esvc⟩ := e
    simp only [assignConfigs]
    by_cases hce : hasConfig sm eid = true
    · rw [if_pos hce, if_pos (hok (eid, esvc) (List.mem_cons_self _ _) hce)]
      exact ih fun p hp => hok p (List.mem_cons_of_mem _ hp)
    · rw [if_neg hce]
      exact ih fun p hp => hok p (List.mem_cons_of_mem _ hp)

theorem lookupSvc_mem (id : String) (svc : Svc) (entries : List (String × Svc))
    (h : lookupSvc id entries = some svc) : (id, svc) ∈ entries := by
  induction entries with
  | nil => simp [lookupSvc] at h
  | cons e rest ih =>
    obtain ⟨eid, esvc⟩ := e
    simp only [lookupSvc] at h
    by_cases he : eid = id
    · subst he
      rw [if_pos rfl] at h
      exact (Option.some.inj h) ▸ List.mem_cons_self _ _
    · rw [if_neg he] at h
      exact List.mem_cons_of_mem _ (ih h)

theorem runIDList_ok (sm : SM) (ids : List String)
    (hok : ∀ p ∈ sm.services, hasConfig sm p.1 = true → p.2.runOk = true) :
    (runIDList sm ids).1 = none := by
  induction ids with
  | nil => rfl
  | cons id rest ih =>
    cases hl : lookupSvc id sm.services with
    | none =>
      simp only [runIDList, hl]
      exact ih
    | some svc =>
      simp only [runIDList, hl]
      by_cases hc : hasConfig sm id = true
      · rw [if_pos hc,
          if_pos (hok (id, svc) (lookupSvc_mem id svc sm.services hl) hc)]
        exact ih
      · rw [if_neg hc]
        exact ih

theorem runMain_ok (sm : SM) (entries : List (String × Svc))
    (hok : ∀ p ∈ entries, hasConfig sm p.1 = true → p.2.runOk = true) :
    (runMain sm entries).1 = none := by
  induction entries with
  | nil => rfl
  | cons e rest ih =>
    obtain ⟨eid, esvc⟩ := e
    simp only [runMain]
    by_cases hps : (isPriorService eid || isSubsequentService eid) = true
    · rw [if_pos hps]
      exact ih fun p hp h => hok p (List.mem_cons_of_mem _ hp) h
    · rw [if_neg hps]
      by_cases hc : hasConfig sm eid = true
      · rw [if_pos hc, if_pos (hok (eid, esvc) (List.mem_cons_self _ _) hc)]
        exact ih fun p hp h => hok p (List.mem_cons_of_mem _ hp) h
      · rw [if_neg hc]
        exact ih fun p hp h => hok p (List.mem_cons_of_mem _ hp) h

/-- C7 — skip on missing config: a registered module whose identifier
has no retrievable configuration is never run in any phase (its id
never enters the invocation trace, whatever the outcome), and when
every configured module's `SetConfig` and `Run` succeed, the overall
run still returns success. -/
theorem runAll_skip_unconfigured (sm : SM) (m : String) (svcM : Svc)
    (hm : (m, svcM) ∈ sm.services)
    (hmc : hasConfig sm m = false) :
    m ∉ (runAll sm).2 ∧
      ((∀ p ∈ sm.services, hasConfig sm p.1 = true →
          p.2.setOk = true ∧ p.2.runOk = true) →
        (runAll sm).1 = none) := by
  have hnc : ¬hasConfig sm m = true := by simp [hmc]
  constructor
  · intro hmem
    cases hassign : assignConfigs sm sm.services with
    | some e => simp [runAll, hassign] at hmem
    | none =>
      cases hp : (runIDList sm priorServiceIDs).1 with
      | some e =>
        simp only [runAll, hassign, hp] at hmem
        exact hnc (runIDList_configured sm priorServiceIDs m hmem)
      | none =>
        cases hmn : (runMain sm sm.services).1 with
        | some e =>
          simp only [runAll, hassign, hp, hmn, List.mem_append] at hmem
          rcases hmem with h | h
          · exact hnc (runIDList_configured sm priorServiceIDs m h)
          · exact hnc (runMain_main_phase sm sm.services m h).2.2
        | none =>
          simp only [runAll, hassign, hp, hmn, List.mem_append] at hmem
          rcases hmem with (h | h) | h
          · exact hnc (runIDList_configured sm priorServiceIDs m h)
          · exact hnc (runMain_main_phase sm sm.services m h).2.2
          · exact hnc (runIDList_configured sm subsequentServiceIDs m h)
  · intro hok
    have h1 := assignConfigs_ok sm sm.services fun p hp h => (hok p hp h).1
    have h2 := runIDList_ok sm priorServiceIDs fun p hp h => (hok p hp h).2
    have h3 := runMain_ok sm sm.services fun p hp h => (hok p hp h).2
    have h4 := runIDList_ok sm subsequentServiceIDs fun p hp h => (hok p hp h).2
    simp [runAll, h1, h2, h3, h4]

/-- C7 witness: in `smDemo` the registered but unconfigured `"ghost"`
module is absent from the trace and the run succeeds. -/
theorem runAll_skip_unconfigured_witness :
    (("ghost", (⟨true, true⟩ : Svc)) ∈ smDemo.services ∧
        hasConfig smDemo "ghost" = false) ∧
      "ghost" ∉ (runAll smDemo).2 ∧
      ((∀ p ∈ smDemo.services, hasConfig smDemo p.1 = true →
          p.2.setOk = true ∧ p.2.runOk = true) →
        (runAll smDemo).1 = none) :=
  ⟨⟨by decide, by decide⟩,
    runAll_skip_unconfigured smDemo "ghost" ⟨true, true⟩ (by decide) (by decide)⟩

/-! ## `pkg/baselocal/baseLocal.go`: the Script Registrar

`BaseLocal`'s script registry holds four maps (Go maps, modelled as
association lists where insertion conses a fresh key).  `RegisterLines`
and `RegisterFile` iterate the configured `FileList` (fixed after
`SetConfig`, so passed separately from the mutable maps): active line
channels (`"make"`, `"task"`, `"commit"`) reject an already-registered
service name, the `"script"` channel of `RegisterFile` rejects an
already-registered file name, and inactive channels are swallowed
no-ops.  Go mutates the maps in place, so the returned state is the
state at the point of return, including on error. -/

/-- Association-list lookup (first match), modelling Go map access. -/
def alookup (k : String) : List (String × List String) → Option (List String)
  | [] => none
  | (k', v) :: rest => if k' = k then some v else alookup k rest

/-- The four script maps of `scriptRegistry`. -/
structure RegMaps where
  makeScripts : List (String × List String)
  taskScripts : List (String × List String)
  commitScripts : List (String × List String)
  scriptFiles : List (String × List String)
deriving DecidableEq, Repr

/-- The empty registry built by `NewBaseLocal`. -/
def regEmpty : RegMaps := ⟨[], [], [], []⟩

/-- `RegisterLines(name, lines)`: iterate the configured file list;
duplicate names in an active line channel are rejected with the state
as mutated so far. -/
def registerLinesGo (name : String) (lines : List String) :
    List String → RegMaps → Option String × RegMaps
  | [], st => (none, st)
  | entry :: rest, st =>
    if entry = "make" then
      match alookup name st.makeScripts with
      | some _ => (some ("service " ++ name ++ " already registered in make"), st)
      | none =>
        registerLinesGo name lines rest
          { st with makeScripts := (name, lines) :: st.makeScripts }
    else if entry = "task" then
      match alookup name st.taskScripts with
      | some _ => (some ("service " ++ name ++ " already registered in task"), st)
      | none =>
        registerLinesGo name lines rest
          { st with taskScripts := (name, lines) :: st.taskScripts }
    else if entry = "commit" then
      match alookup name st.commitScripts with
      | some _ => (some ("service " ++ name ++ " already registered in commit"), st)
      | none =>
        registerLinesGo name lines rest
          { st with commitScripts := (name, lines) :: st.commitScripts }
    else registerLinesGo name lines rest st

/-- `RegisterFile(name, lines)`: only the `"script"` channel stores the
file; duplicate file names are rejected. -/
def registerFileGo (name : String) (lines : List String) :
    List String → RegMaps → Option String × RegMaps
  | [], st => (none, st)
  | entry :: rest, st =>
    if entry = "script" then
      match alookup name st.scriptFiles with
      | some _ => (some ("file " ++ name ++ " already registered in scripts"), st)
      | none =>
        registerFileGo name lines rest
          { st with scriptFiles := (name, lines) :: st.scriptFiles }
    else registerFileGo name lines rest st

/-- A registration performed by some other module between two calls. -/
inductive RegCall where
  | lines (name : String) (ls : List String)
  | file (name : String) (ls : List String)
deriving DecidableEq, Repr

/-- The state after one registrar call (Go mutates in place, so the
state at return is kept even when the call errors). -/
def applyCall (fl : List String) (c : RegCall) (st : RegMaps) : RegMaps :=
  match c with
  | RegCall.lines n ls => (registerLinesGo n ls fl st).2
  | RegCall.file n ls => (registerFileGo n ls fl st).2

/-- The state after a sequence of registrar calls. -/
def applyCalls (fl : List String) (cs : List RegCall) (st : RegMaps) : RegMaps :=
  cs.foldl (fun acc c => applyCall fl c acc) st

/-- What the registrar stores under a service name across the three
line channels. -/
def linesView (name : String) (st : RegMaps) :
    Option (List String) × Option (List String) × Option (List String) :=
  (alookup name st.makeScripts, alookup name st.taskScripts,
    alookup name st.commitScripts)

/-- A call that does not use `name` as a line-group identifier. -/
def avoidsLinesB (name : String) : RegCall → Bool
  | RegCall.lines n _ => n != name
  | RegCall.file _ _ => true

/-- A call that does not use `name` as a file name. -/
def avoidsFileB (name : String) : RegCall → Bool
  | RegCall.file n _ => n != name
  | RegCall.lines _ _ => true

theorem rl_keep (name : String) (l : List String) (fl : List String) :
    ∀ st st', registerLinesGo name l fl st = (none, st') →
      (∀ v, alookup name st.makeScripts = some v →
        alookup name st'.makeScripts = some v) ∧
      (∀ v, alookup name st.taskScripts = some v →
        alookup name st'.taskScripts = some v) ∧
      (∀ v, alookup name st.commitScripts = some v →
        alookup name st'.commitScripts = some v) := by
  induction fl with
  | nil =>
    intro st st' h
    simp only [registerLinesGo, Prod.mk.injEq] at h
    rw [← h.2]
    exact ⟨fun v hv => hv, fun v hv => hv, fun v hv => hv⟩
  | cons e rest ih =>
    intro st st' h
    simp only [registerLinesGo] at h
    by_cases he : e = "make"
    · rw [if_pos he] at h
      cases ha : alookup name st.makeScripts with
      | some v => rw [ha] at h; simp at h
      | none =>
        rw [ha] at h
        refine ⟨fun v hv => ?_, fun v hv => (ih _ _ h).2.1 v hv,
          fun v hv => (ih _ _ h).2.2 v hv⟩
        simp at hv
    · rw [if_neg he] at h
      by_cases ht : e = "task"
      · rw [if_pos ht] at h
        cases ha : alookup name st.taskScripts with
        | some v => rw [ha] at h; simp at h
        | none =>
          rw [ha] at h
          refine ⟨fun v hv => (ih _ _ h).1 v hv, fun v hv => ?_,
            fun v hv => (ih _ _ h).2.2 v hv⟩
          simp at hv
      · rw [if_neg ht] at h
        by_cases hc : e = "commit"
        · rw [if_pos hc] at h
          cases ha : alookup name st.commitScripts with
          | some v => rw [ha] at h; simp at h
          | none =>
            rw [ha] at h
            refine ⟨fun v hv => (ih _ _ h).1 v hv,
              fun v hv => (ih _ _ h).2.1 v hv, fun v hv => ?_⟩
            simp at hv
        · rw [if_neg hc] at h
          exact ih _ _ h

theorem rl_populates (name : String) (l : List String) (fl : List String) :
    ∀ st st', registerLinesGo name l fl st = (none, st') →
      ("make" ∈ fl → alookup name st'.makeScripts = some l) ∧
      ("task" ∈ fl → alookup name st'.taskScripts = some l) ∧
      ("commit" ∈ fl → alookup name st'.commitScripts = some l) := by
  induction fl with
  | nil => intro st st' _; refine ⟨?_, ?_, ?_⟩ <;> intro hm <;> simp at hm
  | cons e rest ih =>
    intro st st' h
    simp only [registerLinesGo] at h
    by_cases he : e = "make"
    · rw [if_pos he] at h
      cases ha : alookup name st.makeScripts with
      | some v => rw [ha] at h; simp at h
      | none =>
        rw [ha] at h
        have hkeep := rl_keep name l rest _ _ h
        have hmk : alookup name st'.makeScripts = some l :=
          hkeep.1 l (by simp [alookup])
        refine ⟨fun _ => hmk, fun hm => ?_, fun hm => ?_⟩
        · rcases List.mem_cons.mp hm with hx | hx
          · exact absurd (he ▸ hx.symm) (by decide)
          · exact (ih _ _ h).2.1 hx
        · rcases List.mem_cons.mp hm with hx | hx
          · exact absurd (he ▸ hx.symm) (by decide)
          · exact (ih _ _ h).2.2 hx
    · rw [if_neg he] at h
      by_cases ht : e = "task"
      · rw [if_pos ht] at h
        cases ha : alookup name st.taskScripts with
        | some v => rw [ha] at h; simp at h
        | none =>
          rw [ha] at h
          have hkeep := rl_keep name l rest _ _ h
          have htk : alookup name st'.taskScripts = some l :=
            hkeep.2.1 l (by simp [alookup])
          refine ⟨fun hm => ?_, fun _ => htk, fun hm => ?_⟩
          · rcases List.mem_cons.mp hm with hx | hx
            · exact absurd (ht ▸ hx.symm) (by decide)
            · exact (ih _ _ h).1 hx
          · rcases List.mem_cons.mp hm with hx | hx
            · exact absurd (ht ▸ hx.symm) (by decide)
            · exact (ih _ _ h).2.2 hx
      · rw [if_neg ht] at h
        by_cases hc : e = "commit"
        · rw [if_pos hc] at h
          cases ha : alookup name st.commitScripts with
          | some v => rw [ha] at h; simp at h
          | none =>
            rw [ha] at h
            have hkeep := rl_keep name l rest _ _ h
            have hcm : alookup name st'.commitScripts = some l :=
              hkeep.2.2 l (by simp [alookup])
            refine ⟨fun hm => ?_, fun hm => ?_, fun _ => hcm⟩
            · rcases List.mem_cons.mp hm with hx | hx
              · exact absurd (hc ▸ hx.symm) (by decide)
              · exact (ih _ _ h).1 hx
            · rcases List.mem_cons.mp hm with hx | hx
              · exact absurd (hc ▸ hx.symm) (by decide)
              · exact (ih _ _ h).2.1 hx
        · rw [if_neg hc] at h
          refine ⟨fun hm => ?_, fun hm => ?_, fun hm => ?_⟩
          · rcases List.mem_cons.mp hm with hx | hx
            · exact absurd (hx ▸ he) (by simp)
            · exact (ih _ _ h).1 hx
          · rcases List.mem_cons.mp hm with hx | hx
            · exact absurd (hx ▸ ht) (by simp)
            · exact (ih _ _ h).2.1 hx
          · rcases List.mem_cons.mp hm with hx | hx
            · exact absurd (hx ▸ hc) (by simp)
            · exact (ih _ _ h).2.2 hx

theorem rl_other_pres (n : String) (ls : List String) (name : String)
    (fl : List String) (hne : n ≠ name) :
    ∀ st, linesView name ((registerLinesGo n ls fl st).2) = linesView name st := by
  induction fl with
  | nil => intro st; rfl
  | cons e rest ih =>
    intro st
    simp only [registerLinesGo]
    by_cases he : e = "make"
    · rw [if_pos he]
      cases ha : alookup n st.makeScripts with
      | some v => rfl
      | none =>
        rw [ih _]
        simp [linesView, alookup, hne]
    · rw [if_neg he]
      by_cases ht : e = "task"
      · rw [if_pos ht]
        cases ha : alookup n st.taskScripts with
        | some v => rfl
        | none =>
          rw [ih _]
          simp [linesView, alookup, hne]
      · rw [if_neg ht]
        by_cases hc : e = "commit"
        · rw [if_pos hc]
          cases ha : alookup n st.commitScripts with
          | some v => rfl
          | none =>
            rw [ih _]
            simp [linesView, alookup, hne]
        · rw [if_neg hc]
          exact ih st

theorem rf_pres_lines (n : String) (ls : List String) (fl : List String) :
    ∀ st, ((registerFileGo n ls fl st).2).makeScripts = st.makeScripts ∧
      ((registerFileGo n ls fl st).2).taskScripts = st.taskScripts ∧
      ((registerFileGo n ls fl st).2).commitScripts = st.commitScripts := by
  induction fl with
  | nil => intro st; exact ⟨rfl, rfl, rfl⟩
  | cons e rest ih =>
    intro st
    simp only [registerFileGo]
    by_cases he : e = "script"
    · rw [if_pos he]
      cases ha : alookup n st.scriptFiles with
      | some v => exact ⟨rfl, rfl, rfl⟩
      | none => simpa using ih _
    · rw [if_neg he]
      exact ih st

theorem calls_pres_lines (name : String) (fl : List String) (cs : List RegCall)
    (hav : ∀ c ∈ cs, avoidsLinesB name c = true) :
    ∀ st, linesView name (applyCalls fl cs st) = linesView name st := by
  induction cs with
  | nil => intro st; rfl
  | cons c rest ih =>
    intro st
    have hstep : linesView name (applyCall fl c st) = linesView name st := by
      cases c with
      | lines n ls =>
        have := hav (RegCall.lines n ls) (List.mem_cons_self _ _)
        simp only [avoidsLinesB, ne_eq, bne_iff_ne] at this
        exact rl_other_pres n ls name fl this st
      | file n ls =>
        simp [applyCall, linesView, (rf_pres_lines n ls fl st).1,
          (rf_pres_lines n ls fl st).2.1, (rf_pres_lines n ls fl st).2.2]
    calc linesView name (applyCalls fl (c :: rest) st)
        = linesView name (applyCalls fl rest (applyCall fl c st)) := rfl
      _ = linesView name (applyCall fl c st) :=
          ih (fun d hd => hav d (List.mem_cons_of_mem _ hd)) _
      _ = linesView name st := hstep

theorem rl_all_present (name : String) (l₂ : List String) (fl : List String) :
    ∀ st,
      ("make" ∈ fl → alookup name st.makeScripts ≠ none) →
      ("task" ∈ fl → alookup name st.taskScripts ≠ none) →
      ("commit" ∈ fl → alookup name st.commitScripts ≠ none) →
      (registerLinesGo name l₂ fl st).2 = st ∧
        ((registerLinesGo name l₂ fl st).1 = none →
          ¬("make" ∈ fl ∨ "task" ∈ fl ∨ "commit" ∈ fl)) := by
  induction fl with
  | nil => intro st _ _ _; exact ⟨rfl, fun _ h => by simpa using h⟩
  | cons e rest ih =>
    intro st hmk htk hcm
    simp only [registerLinesGo]
    by_cases he : e = "make"
    · rw [if_pos he]
      cases ha : alookup name st.makeScripts with
      | some v => exact ⟨rfl, fun h => by simp at h⟩
      | none => exact absurd ha (hmk (by simp [he]))
    · rw [if_neg he]
      by_cases ht : e = "task"
      · rw [if_pos ht]
        cases ha : alookup name st.taskScripts with
        | some v => exact ⟨rfl, fun h => by simp at h⟩
        | none => exact absurd ha (htk (by simp [ht]))
      · rw [if_neg ht]
        by_cases hc : e = "commit"
        · rw [if_pos hc]
          cases ha : alookup name st.commitScripts with
          | some v => exact ⟨rfl, fun h => by simp at h⟩
          | none => exact absurd ha (hcm (by simp [hc]))
        · rw [if_neg hc]
          have := ih st (fun hm => hmk (List.mem_cons_of_mem _ hm))
            (fun hm => htk (List.mem_cons_of_mem _ hm))
            (fun hm => hcm (List.mem_cons_of_mem _ hm))
          refine ⟨this.1, fun h hmem => ?_⟩
          apply this.2 h
          rcases hmem with hm | hm | hm
          · rcases List.mem_cons.mp hm with hx | hx
            · exact absurd (hx ▸ he) (by simp)
            · exact Or.inl hx
          · rcases List.mem_cons.mp hm with hx | hx
            · exact absurd (hx ▸ ht) (by simp)
            · exact Or.inr (Or.inl hx)
          · rcases List.mem_cons.mp hm with hx | hx
            · exact absurd (hx ▸ hc) (by simp)
            · exact Or.inr (Or.inr hx)

theorem rf_keep (name : String) (l : List String) (fl : List String) :
    ∀ st st', registerFileGo name l fl st = (none, st') →
      ∀ v, alookup name st.scriptFiles = some v →
        alookup name st'.scriptFiles = some v := by
  induction fl with
  | nil =>
    intro st st' h
    simp only [registerFileGo, Prod.mk.injEq] at h
    rw [← h.2]
    exact fun v hv => hv
  | cons e rest ih =>
    intro st st' h
    simp only [registerFileGo] at h
    by_cases he : e = "script"
    · rw [if_pos he] at h
      cases ha : alookup name st.scriptFiles with
      | some v => rw [ha] at h; simp at h
      | none => intro v hv; simp at hv
    · rw [if_neg he] at h
      exact ih _ _ h

theorem rf_populates (name : String) (l : List String) (fl : List String) :
    ∀ st st', registerFileGo name l fl st = (none, st') →
      "script" ∈ fl → alookup name st'.scriptFiles = some l := by
  induction fl with
  | nil => intro st st' _ hm; simp at hm
  | cons e rest ih =>
    intro st st' h hm
    simp only [registerFileGo] at h
    by_cases he : e = "script"
    · rw [if_pos he] at h
      cases ha : alookup name st.scriptFiles with
      | some v => rw [ha] at h; simp at h
      | none =>
        rw [ha] at h
        exact rf_keep name l rest _ _ h l (by simp [alookup])
    · rw [if_neg he] at h
      rcases List.mem_cons.mp hm with hx | hx
      · exact absurd (hx ▸ he) (by simp)
      · exact ih _ _ h hx

theorem rf_other_pres (n : String) (ls : List String) (name : String)
    (fl : List String) (hne : n ≠ name) :
    ∀ st, alookup name ((registerFileGo n ls fl st).2).scriptFiles =
      alookup name st.scriptFiles := by
  induction fl with
  | nil => intro st; rfl
  | cons e rest ih =>
    intro st
    simp only [registerFileGo]
    by_cases he : e = "script"
    · rw [if_pos he]
      cases ha : alookup n st.scriptFiles with
      | some v => rfl
      | none =>
        rw [ih _]
        simp [alookup, hne]
    · rw [if_neg he]
      exact ih st

theorem rl_pres_files (n : String) (ls : List String) (fl : List String) :
    ∀ st, ((registerLinesGo n ls fl st).2).scriptFiles = st.scriptFiles := by
  induction fl with
  | nil => intro st; rfl
  | cons e rest ih =>
    intro st
    simp only [registerLinesGo]
    by_cases he : e = "make"
    · rw [if_pos he]
      cases ha : alookup n st.makeScripts with
      | some v => rfl
      | none => simpa using ih _
    · rw [if_neg he]
      by_cases ht : e = "task"
      · rw [if_pos ht]
        cases ha : alookup n st.taskScripts with
        | some v => rfl
        | none => simpa using ih _
      · rw [if_neg ht]
        by_cases hc : e = "commit"
        · rw [if_pos hc]
          cases ha : alookup n st.commitScripts with
          | some v => rfl
          | none => simpa using ih _
        · rw [if_neg hc]
          exact ih st

theorem calls_pres_files (name : String) (fl : List String) (cs : List RegCall)
    (hav : ∀ c ∈ cs, avoidsFileB name c = true) :
    ∀ st, alookup name (applyCalls fl cs st).scriptFiles =
      alookup name st.scriptFiles := by
  induction cs with
  | nil => intro st; rfl
  | cons c rest ih =>
    intro st
    have hstep : alookup name (applyCall fl c st).scriptFiles =
        alookup name st.scriptFiles := by
      cases c with
      | lines n ls => simp [applyCall, rl_pres_files n ls fl st]
      | file n ls =>
        have := hav (RegCall.file n ls) (List.mem_cons_self _ _)
        simp only [avoidsFileB, ne_eq, bne_iff_ne] at this
        exact rf_other_pres n ls name fl this st
    calc alookup name (applyCalls fl (c :: rest) st).scriptFiles
        = alookup name (applyCalls fl rest (applyCall fl c st)).scriptFiles := rfl
      _ = alookup name (applyCall fl c st).scriptFiles :=
          ih (fun d hd => hav d (List.mem_cons_of_mem _ hd)) _
      _ = alookup name st.scriptFiles := hstep

theorem rf_all_present (name : String) (l₂ : List String) (fl : List String) :
    ∀ st, ("script" ∈ fl → alookup name st.scriptFiles ≠ none) →
      (registerFileGo name l₂ fl st).2 = st ∧
        ((registerFileGo name l₂ fl st).1 = none → "script" ∉ fl) := by
  induction fl with
  | nil => intro st _; exact ⟨rfl, fun _ h => by simp at h⟩
  | cons e rest ih =>
    intro st hs
    simp only [registerFileGo]
    by_cases he : e = "script"
    · rw [if_pos he]
      cases ha : alookup name st.scriptFiles with
      | some v => exact ⟨rfl, fun h => by simp at h⟩
      | none => exact absurd ha (hs (by simp [he]))
    · rw [if_neg he]
      have := ih st (fun hm => hs (List.mem_cons_of_mem _ hm))
      refine ⟨this.1, fun h hmem => ?_⟩
      rcases List.mem_cons.mp hmem with hx | hx
      · exact absurd (hx ▸ he) (by simp)
      · exact this.2 h hx

/-- C5 — duplicate-registration rejection: against one registrar whose
configuration activates a matching output channel, a second
`RegisterLines` call under the same module identifier (respectively a
second `RegisterFile` call under the same file name) always returns an
error and leaves the state at the point of failure unchanged,
regardless of other modules' registrations in between; the lines
stored by the first call are still in place, neither overwritten nor
merged. -/
theorem registrar_duplicate_rejected :
    (∀ (fl : List String) (mid : String) (l₁ l₂ : List String)
        (st₀ st₁ st₂ : RegMaps) (cs : List RegCall),
        ("make" ∈ fl ∨ "task" ∈ fl ∨ "commit" ∈ fl) →
        registerLinesGo mid l₁ fl st₀ = (none, st₁) →
        (∀ c ∈ cs, avoidsLinesB mid c = true) →
        st₂ = applyCalls fl cs st₁ →
        (∃ e, registerLinesGo mid l₂ fl st₂ = (some e, st₂)) ∧
          linesView mid st₂ = linesView mid st₁ ∧
          ("make" ∈ fl → alookup mid st₂.makeScripts = some l₁) ∧
          ("task" ∈ fl → alookup mid st₂.taskScripts = some l₁) ∧
          ("commit" ∈ fl → alookup mid st₂.commitScripts = some l₁)) ∧
    (∀ (fl : List String) (fn : String) (m₁ m₂ : List String)
        (st₀ st₁ st₂ : RegMaps) (cs : List RegCall),
        "script" ∈ fl →
        registerFileGo fn m₁ fl st₀ = (none, st₁) →
        (∀ c ∈ cs, avoidsFileB fn c = true) →
        st₂ = applyCalls fl cs st₁ →
        (∃ e, registerFileGo fn m₂ fl st₂ = (some e, st₂)) ∧
          alookup fn st₂.scriptFiles = some m₁) := by
  constructor
  · intro fl mid l₁ l₂ st₀ st₁ st₂ cs hch hfirst hav hst₂
    have hpop := rl_populates mid l₁ fl st₀ st₁ hfirst
    have hview : linesView mid st₂ = linesView mid st₁ := by
      rw [hst₂]; exact calls_pres_lines mid fl cs hav st₁
    have hmk₂ : "make" ∈ fl → alookup mid st₂.makeScripts = some l₁ := by
      intro hm
      have := congrArg (fun v => v.1) hview
      simpa [linesView] using this.trans (by simpa using hpop.1 hm)
    have htk₂ : "task" ∈ fl → alookup mid st₂.taskScripts = some l₁ := by
      intro hm
      have := congrArg (fun v => v.2.1) hview
      simpa [linesView] using this.trans (by simpa using hpop.2.1 hm)
    have hcm₂ : "commit" ∈ fl → alookup mid st₂.commitScripts = some l₁ := by
      intro hm
      have := congrArg (fun v => v.2.2) hview
      simpa [linesView] using this.trans (by simpa using hpop.2.2 hm)
    have hall := rl_all_present mid l₂ fl st₂
      (fun hm => by simp [hmk₂ hm]) (fun hm => by simp [htk₂ hm])
      (fun hm => by simp [hcm₂ hm])
    refine ⟨?_, hview, hmk₂, htk₂, hcm₂⟩
    cases herr : (registerLinesGo mid l₂ fl st₂).1 with
    | none => exact absurd hch (hall.2 herr)
    | some e =>
      refine ⟨e, ?_⟩
      rw [Prod.ext_iff]
      exact ⟨by simpa using herr, by simpa using hall.1⟩
  · intro fl fn m₁ m₂ st₀ st₁ st₂ cs hch hfirst hav hst₂
    have hpop := rf_populates fn m₁ fl st₀ st₁ hfirst hch
    have hfiles : alookup fn st₂.scriptFiles = some m₁ := by
      rw [hst₂, calls_pres_files fn fl cs hav st₁]; exact hpop
    have hall := rf_all_present fn m₂ fl st₂ (fun _ => by simp [hfiles])
    refine ⟨?_, hfiles⟩
    cases herr : (registerFileGo fn m₂ fl st₂).1 with
    | none => exact absurd hch (hall.2 herr)
    | some e =>
      refine ⟨e, ?_⟩
      rw [Prod.ext_iff]
      exact ⟨by simpa using herr, by simpa using hall.1⟩

/-- C5 witness: with the `"make"` and `"script"` channels active,
re-registering `"base_lint"` lines (after an unrelated file
registration in between) and re-registering the `"lint.sh"` file (after
an unrelated line registration in between) both fail, keeping the first
registrations intact. -/
theorem registrar_duplicate_rejected_witness :
    (registerLinesGo "base_lint" ["go-cmd"] ["make", "script"] regEmpty =
        (none, ⟨[("base_lint", ["go-cmd"])], [], [], []⟩) ∧
      ((∃ e, registerLinesGo "base_lint" ["other"] ["make", "script"]
            (applyCalls ["make", "script"] [RegCall.file "lint.sh" ["x"]]
              ⟨[("base_lint", ["go-cmd"])], [], [], []⟩) =
          (some e, applyCalls ["make", "script"] [RegCall.file "lint.sh" ["x"]]
            ⟨[("base_lint", ["go-cmd"])], [], [], []⟩)) ∧
        linesView "base_lint"
            (applyCalls ["make", "script"] [RegCall.file "lint.sh" ["x"]]
              ⟨[("base_lint", ["go-cmd"])], [], [], []⟩) =
          linesView "base_lint" ⟨[("base_lint", ["go-cmd"])], [], [], []⟩ ∧
        ("make" ∈ (["make", "script"] : List String) →
          alookup "base_lint"
              (applyCalls ["make", "script"] [RegCall.file "lint.sh" ["x"]]
                ⟨[("base_lint", ["go-cmd"])], [], [], []⟩).makeScripts =
            some ["go-cmd"]) ∧
        ("task" ∈ (["make", "script"] : List String) →
          alookup "base_lint"
              (applyCalls ["make", "script"] [RegCall.file "lint.sh" ["x"]]
                ⟨[("base_lint", ["go-cmd"])], [], [], []⟩).taskScripts =
            some ["go-cmd"]) ∧
        ("commit" ∈ (["make", "script"] : List String) →
          alookup "base_lint"
              (applyCalls ["make", "script"] [RegCall.file "lint.sh" ["x"]]
                ⟨[("base_lint", ["go-cmd"])], [], [], []⟩).commitScripts =
            some ["go-cmd"]))) ∧
    (registerFileGo "lint.sh" ["go-cmd"] ["make", "script"] regEmpty =
        (none, ⟨[], [], [], [("lint.sh", ["go-cmd"])]⟩) ∧
      ((∃ e, registerFileGo "lint.sh" ["other"] ["make", "script"]
            (applyCalls ["make", "script"] [RegCall.lines "base_test" ["t"]]
              ⟨[], [], [], [("lint.sh", ["go-cmd"])]⟩) =
          (some e, applyCalls ["make", "script"] [RegCall.lines "base_test" ["t"]]
            ⟨[], [], [], [("lint.sh", ["go-cmd"])]⟩)) ∧
        alookup "lint.sh"
            (applyCalls ["make", "script"] [RegCall.lines "base_test" ["t"]]
              ⟨[], [], [], [("lint.sh", ["go-cmd"])]⟩).scriptFiles =
          some ["go-cmd"])) :=
  ⟨⟨by decide,
      registrar_duplicate_rejected.1 ["make", "script"] "base_lint" ["go-cmd"]
        ["other"] regEmpty ⟨[("base_lint", ["go-cmd"])], [], [], []⟩
        (applyCalls ["make", "script"] [RegCall.file "lint.sh" ["x"]]
          ⟨[("base_lint", ["go-cmd"])], [], [], []⟩)
        [RegCall.file "lint.sh" ["x"]]
        (by decide) (by decide) (by decide) rfl⟩,
    ⟨by decide,
      registrar_duplicate_rejected.2 ["make", "script"] "lint.sh" ["go-cmd"]
        ["other"] regEmpty ⟨[], [], [], [("lint.sh", ["go-cmd"])]⟩
        (applyCalls ["make", "script"] [RegCall.lines "base_test" ["t"]]
          ⟨[], [], [], [("lint.sh", ["go-cmd"])]⟩)
        [RegCall.lines "base_test" ["t"]]
        (by decide) (by decide) (by decide) rfl⟩⟩

/-! ## `pkg/baselint/baseLint.go`: the lint module

`copyFiles` iterates the configured linter map (modelled as an
association list in the map's arbitrary iteration order): disabled
linters are skipped, `golang`/`yaml`/`markdown` each copy and render
one fixed config file, `make` and unknown names are skipped.  File I/O
success is abstracted by an oracle `fsOk` on file names.  After the
loop, exactly when a Script Registrar was injected
(`SetScriptReceiver`), `registerScripts` collects commands from *all*
linter entries — the `Enabled` flag is not consulted, although the
function's own documentation and the repository's test
("registers scripts for enabled linters only") require enabled-only —
and registers them under `base_lint` and as the `lint.sh` file. -/

/-- One linter entry of `config.BaseLintConfig.Linters`. -/
structure Linter where
  cmd : String
  enabled : Bool
deriving DecidableEq, Repr

/-- The fixed config file each known linter name copies (`make` uses
flags only and unknown names are skipped for forward compatibility). -/
def lintFileName (name : String) : Option String :=
  if name = "golang" then some ".golangci.yml"
  else if name = "yaml" then some ".yamllint.yml"
  else if name = "make" then none
  else if name = "markdown" then some ".markdownlint.yml"
  else none

/-- The linter loop of `copyFiles`: returns the names of the config
files handled, or the first copy/render error. -/
def copyFilesLoop (fsOk : String → Bool) : List (String × Linter) → Except String (List String)
  | [] => Except.ok []
  | (name, info) :: rest =>
    if info.enabled = false then copyFilesLoop fsOk rest
    else
      match lintFileName name with
      | none => copyFilesLoop fsOk rest
      | some f =>
        if fsOk f then (copyFilesLoop fsOk rest).map (f :: ·)
        else Except.error ("failed to handle " ++ name ++ " lint file")

/-- `cmds` as accumulated in `registerScripts`: every entry's `Cmd`,
with no check of `Enabled`. -/
def lintRegisterCmds (linters : List (String × Linter)) : List String :=
  linters.map fun p => p.2.cmd

/-- `registerScripts`: register the collected commands as the
`base_lint` line group and as the `lint.sh` script file.  Returns the
first error, the updated registrar maps and the calls issued. -/
def registerScriptsLint (linters : List (String × Linter)) (fl : List String)
    (st : RegMaps) : Option String × RegMaps × List RegCall :=
  let cmds := lintRegisterCmds linters
  match registerLinesGo "base_lint" cmds fl st with
  | (some e, st') =>
    (some ("failed to register script commands: " ++ e), st',
      [RegCall.lines "base_lint" cmds])
  | (none, st') =>
    match registerFileGo "lint.sh" cmds fl st' with
    | (some e, st'') =>
      (some ("failed to register script file: " ++ e), st'',
        [RegCall.lines "base_lint" cmds, RegCall.file "lint.sh" cmds])
    | (none, st'') =>
      (none, st'', [RegCall.lines "base_lint" cmds, RegCall.file "lint.sh" cmds])

/-- The `BaseLint` service state relevant to the claims: the injected
registrar (its configured file list and maps), or `nil`. -/
structure BaseLintM where
  targetDir : String
  script : Option (List String × RegMaps)

/-- `NewBaseLint(targetDir)`: the registrar reference starts `nil`. -/
def newBaseLint (targetDir : String) : BaseLintM :=
  { targetDir := targetDir, script := none }

/-- `SetScriptReceiver(reg)`. -/
def setScriptReceiver (b : BaseLintM) (reg : List String × RegMaps) : BaseLintM :=
  { b with script := some reg }

/-- `copyFiles`: the linter loop, then — only when a registrar was
injected — the script registration.  Returns the handled files and the
registrar calls issued. -/
def copyFilesLint (fsOk : String → Bool) (linters : List (String × Linter))
    (script : Option (List String × RegMaps)) :
    Except String (List String × List RegCall) :=
  match copyFilesLoop fsOk linters with
  | Except.error e => Except.error e
  | Except.ok files =>
    match script with
    | none => Except.ok (files, [])
    | some (fl, st) =>
      match registerScriptsLint linters fl st with
      | (some e, _, _) => Except.error ("failed to register scripts: " ++ e)
      | (none, _, calls) => Except.ok (files, calls)

/-- The linter configuration exhibiting the C3 bug: one enabled and one
disabled linter, each with a command. -/
def lintersDemo : List (String × Linter) :=
  [("golang", ⟨"go-cmd", true⟩), ("yaml", ⟨"yaml-cmd", false⟩)]

/-- C3 — the code registers the commands of *all* configured linters,
including disabled ones: with `yaml` disabled, its command `"yaml-cmd"`
is still part of the registered line group and script file, contrary
to the claim, to `registerScripts`' own documentation ("collects all
enabled linter commands") and to the repository's test ("registers
scripts for enabled linters only"). -/
theorem registerScripts_includes_disabled :
    lintRegisterCmds lintersDemo = ["go-cmd", "yaml-cmd"] ∧
      (∃ p ∈ lintersDemo, p.2.enabled = false ∧ p.2.cmd ∈ lintRegisterCmds lintersDemo) ∧
      registerScriptsLint lintersDemo ["make", "script"] regEmpty =
        (none,
          ⟨[("base_lint", ["go-cmd", "yaml-cmd"])], [], [],
            [("lint.sh", ["go-cmd", "yaml-cmd"])]⟩,
          [RegCall.lines "base_lint" ["go-cmd", "yaml-cmd"],
            RegCall.file "lint.sh" ["go-cmd", "yaml-cmd"]]) := by
  refine ⟨by decide, ⟨("yaml", ⟨"yaml-cmd", false⟩), by decide, by decide, by decide⟩,
    by decide⟩

/-- C10 — when `SetScriptReceiver` was never called the registrar stays
at the constructor default `nil`: `Run`'s copy phase issues no
`RegisterLines`/`RegisterFile` call and never touches a registrar,
while file generation proceeds exactly as the linter loop alone
determines it. -/
theorem copyFiles_nil_registrar (fsOk : String → Bool)
    (linters : List (String × Linter)) (targetDir : String) :
    copyFilesLint fsOk linters (newBaseLint targetDir).script =
      (copyFilesLoop fsOk linters).map (fun files => (files, [])) := by
  cases h : copyFilesLoop fsOk linters with
  | error e => simp [copyFilesLint, newBaseLint, h, Except.map]
  | ok files => simp [copyFilesLint, newBaseLint, h, Except.map]

/-! ## `pkg/basetest`: pass 1 path rendering (`renderPath`)

`renderPath` renders the entry's relative path as a template, skips
`suite_test.go` files entirely when the configured test style is not
`"ginkgo"`, strips the `.tmpl` suffix, and otherwise ensures the
directory or copies the file.  Path rendering is abstracted as a
function (it runs the full template engine against the module config),
and destination filesystem operations are recorded as a list. -/

/-- A destination-side filesystem operation of pass 1. -/
inductive FsOp where
  | ensureDirOp (p : String)
  | createOp (p : String)
deriving DecidableEq, Repr

/-- `filepath.Dir`. -/
def upToLastSlash : List Char → Option (List Char)
  | [] => none
  | c :: cs =>
    match upToLastSlash cs with
    | some p => some (c :: p)
    | none => if c = '/' then some [c] else none

/-- `filepath.Dir(p)`: everything up to the final separator, cleaned;
`"."` when there is no separator. -/
def goDir (p : String) : String :=
  match upToLastSlash p.data with
  | none => "."
  | some pre => goClean ⟨pre⟩

/-- `renderPath(relTemplatePath, dirEntry)`: the destination operations
of one pass-1 entry, or the error aborting the walk.  `rend` is the
template rendering of the path against the module config, `readOk`
models reading the source file. -/
def renderPathTest (useStyle : String) (rend : String → Except String String)
    (readOk : String → Bool) (relPath : String) (isDir : Bool) :
    Except String (List FsOp) :=
  match rend relPath with
  | Except.error e => Except.error ("failed to render path " ++ relPath ++ ": " ++ e)
  | Except.ok rendered =>
    if strContains rendered "suite_test.go" && !(useStyle == "ginkgo") then
      Except.ok []
    else
      let rendered2 := strTrimSuffix rendered ".tmpl"
      if isDir then Except.ok [FsOp.ensureDirOp rendered2]
      else if readOk relPath then
        Except.ok [FsOp.ensureDirOp (goDir rendered2), FsOp.createOp rendered2]
      else Except.error ("failed to read template file " ++ relPath)

/-- C6 — skip predicate: whenever the rendered relative path contains
`"suite_test.go"` and the configured test style is not the ginkgo/BDD
style, pass 1 returns success for that entry with no destination
operation at all — nothing is created or modified for it. -/
theorem renderPath_skips_suite (useStyle : String)
    (rend : String → Except String String) (readOk : String → Bool)
    (relPath rendered : String) (isDir : Bool)
    (hr : rend relPath = Except.ok rendered)
    (hs : strContains rendered "suite_test.go" = true)
    (hg : useStyle ≠ "ginkgo") :
    renderPathTest useStyle rend readOk relPath isDir = Except.ok [] := by
  have hb : (strContains rendered "suite_test.go" && !(useStyle == "ginkgo")) = true := by
    rw [hs]
    simpa using hg
  simp only [renderPathTest, hr]
  rw [if_pos hb]

/-- C6 witness: a suite file under the plain `go` test style is skipped
(note the path renderer is the identity on this placeholder-free
path). -/
theorem renderPath_skips_suite_witness :
    (fun p => (Except.ok p : Except String String)) "pkg/demo/demo_suite_test.go.tmpl" =
        Except.ok "pkg/demo/demo_suite_test.go.tmpl" ∧
      strContains "pkg/demo/demo_suite_test.go.tmpl" "suite_test.go" = true ∧
      ("go" : String) ≠ "ginkgo" ∧
      renderPathTest "go" (fun p => Except.ok p) (fun _ => true)
        "pkg/demo/demo_suite_test.go.tmpl" false = Except.ok [] :=
  ⟨rfl, by decide, by decide,
    renderPath_skips_suite "go" (fun p => Except.ok p) (fun _ => true)
      "pkg/demo/demo_suite_test.go.tmpl" "pkg/demo/demo_suite_test.go.tmpl" false
      rfl (by decide) (by decide)⟩

end Goboot
